import Mathlib

/-!
Verification of the SumOfSquares.py monomial-basis / Gram-matrix encoding
engine (files `SumOfSquares/basis.py` and `SumOfSquares/SoS.py`).

The Python code is shallowly embedded: exponent tuples become `List Nat`,
sympy polynomials become explicit association lists from monomials to
rational coefficients, the `defaultdict(list)` that stores the
symmetric-entry partition becomes an insertion-ordered association list,
and Python's in-place mutation is made explicit by returning the updated
dictionary.  Functions that can raise become `Except`-valued, with the
Python exception class recorded.
-/

namespace SumOfSquares

/-- A monomial: an exponent tuple, one entry per variable
(`Tuple[int]` in `basis.py`). -/
abbrev Monom := List Nat

/-- A sympy polynomial as consumed by this core: the list
`zip(poly.monoms(), poly.coeffs())` of distinct monomials with their
rational coefficients. -/
abbrev SPoly := List (Monom × ℚ)

/-- Modelled from the spec: `sum_tuple` from `util.py` (the file is not in
the sources provided); per the spec's symmetric-entry partition description
("the elementwise sum of the i-th and j-th basis monomials") and the code
comment "m = basis[i]*basis[j]", it is the elementwise sum of two exponent
tuples. -/
def sum_tuple (a b : Monom) : Monom := List.zipWith (fun x y => x + y) a b

/-- Python `max(...)` over a (nonempty) list of naturals; on `[]` the
Python call raises, this total model returns `0` and is only used where
the source guarantees nonemptiness. -/
def listMax (l : List Nat) : Nat := l.foldl max 0

/-- `poly.total_degree()`: the maximum total degree of the monomials. -/
def totalDegree (p : SPoly) : Nat := listMax (p.map (fun t => t.1.sum))

/-- Modelled from the spec: `is_hom(poly, d)` from `util.py` (not in the
sources provided); per the spec ("the polynomial is not homogeneous of the
matching degree", "every term has identical total degree") it checks that
every monomial of the polynomial has total degree `d`. -/
def is_homP (p : SPoly) (d : Nat) : Bool := p.all (fun t => t.1.sum = d)

/-- Coefficient of monomial `m` in `p` (`0` when absent), matching the
mapping view of a sympy polynomial. -/
def coeffOf (p : SPoly) (m : Monom) : ℚ :=
  match p.find? (fun t => t.1 = m) with
  | some t => t.2
  | none => 0

/-! ### `basis_hom` / `basis_inhom` (`basis.py` lines 11-31)

`basis_hom` is given twice: `basis_hom` is the total version, defined by
structural recursion on `n` and agreeing with the Python generator on every
`n ≥ 1` (the generator recurses on `n - 1` with base case `n == 1`); and
`basis_homF`, a fuel-indexed transcription over `Int` that also covers the
calls with `n ≤ 0`, on which the Python recursion never reaches a base
case.  `basis_homF_adequate` below connects the two. -/

/-- `basis_hom(n, d)` from `basis.py`, total version for `n ≥ 1`:
`n == 1` yields `(d,)`; else `d == 0` yields `(0,)*n`; else for
`di in range(d+1)` and `b in basis_hom(n-1, di)`, yield `b + (d-di,)`.
The value at `n = 0, d > 0` (where the Python recursion diverges) is
arbitrarily `[]` and never relied upon. -/
def basis_hom : Nat → Nat → List Monom
  | 1, d => [[d]]
  | n, 0 => [List.replicate n 0]
  | n+2, d+1 =>
      (List.range (d+2)).flatMap (fun di =>
        (basis_hom (n+1) di).map (fun b => b ++ [d+1-di]))
  | 0, _+1 => []

/-- `basis_inhom(n, d)` from `basis.py`: drop the last coordinate of each
tuple of `basis_hom(n+1, d)`. -/
def basis_inhom (n d : Nat) : List Monom :=
  (basis_hom (n+1) d).map (fun b => b.dropLast)

/-- Sequence the generator's nested `for` loops under possible
nontermination: `some` of the concatenation when every part is produced,
`none` as soon as one part fails. -/
def optFlatMap : List α → (α → Option (List β)) → Option (List β)
  | [], _ => some []
  | x :: xs, g =>
    match g x, optFlatMap xs g with
    | some ys, some rest => some (ys ++ rest)
    | _, _ => none

/-- Fuel-indexed transcription of `basis_hom(n, d)` with `n : Int`, exactly
following the Python source including its behaviour at non-positive `n`
(where `(0,)*n` is the empty tuple and the recursion on `n-1` never
terminates once `d > 0`).  `none` means the fuel ran out, i.e. the
recursion depth exceeded the given bound. -/
def basis_homF : Nat → Int → Nat → Option (List Monom)
  | 0, _, _ => none
  | f+1, n, d =>
    if n = 1 then some [[d]]
    else if d = 0 then some [List.replicate n.toNat 0]
    else optFlatMap (List.range (d+1)) (fun di =>
      (basis_homF f (n-1) di).map (fun bs => bs.map (fun b => b ++ [d - di])))

/-- The Python call `basis_hom(n, d)` does not terminate: no recursion
depth (fuel) bound suffices to produce its list of tuples. -/
def basisHomDiverges (n : Int) (d : Nat) : Prop :=
  ∀ fuel : Nat, basis_homF fuel n d = none

example : basis_hom 2 2 = [[0,2],[1,1],[2,0]] := by decide
example : basis_inhom 1 1 = [[0],[1]] := by decide

/-! ### The `defaultdict(list)` holding the symmetric-entry partition

Python's `defaultdict(list)` keyed by monomials is modelled as an
association list in key insertion order.  Reading `d[k]` on a missing key
*inserts* `k` with an empty list — `ddAccess` returns the updated
dictionary alongside the value, making that mutation explicit. -/

/-- One entry list of the partition: the index pairs filed under a key. -/
abbrev Entries := List (Nat × Nat)

/-- The dictionary `sos_sym_entries`, in key insertion order. -/
abbrev DDict := List (Monom × Entries)

/-- `d[k].append(v)` on a `defaultdict(list)`: append `v` to the list at
`k`, creating `k ↦ [v]` (at the end, in insertion order) if `k` is new. -/
def ddAppend (d : DDict) (k : Monom) (v : Nat × Nat) : DDict :=
  match d with
  | [] => [(k, [v])]
  | (k', vs) :: rest =>
    if k' = k then (k', vs ++ [v]) :: rest else (k', vs) :: ddAppend rest k v

/-- `d[k]` on a `defaultdict(list)`: the stored list together with the
updated dictionary — a missing key is inserted with `[]`. -/
def ddAccess (d : DDict) (k : Monom) : Entries × DDict :=
  match d with
  | [] => ([], [(k, [])])
  | (k', vs) :: rest =>
    if k' = k then (vs, (k', vs) :: rest)
    else
      let r := ddAccess rest k
      (r.1, (k', vs) :: r.2)

/-- Pure lookup (no insertion), defaulting to `[]`. -/
def ddGetD (d : DDict) (k : Monom) : Entries :=
  match d with
  | [] => []
  | (k', vs) :: rest => if k' = k then vs else ddGetD rest k

/-- `k in d`: key membership. -/
def ddContains (d : DDict) (k : Monom) : Bool :=
  d.any (fun kv => kv.1 = k)

/-- Run a sequence of `d[k].append(v)` operations left to right. -/
def ddInsertAll (d : DDict) (l : List (Monom × (Nat × Nat))) : DDict :=
  l.foldl (fun d kv => ddAppend d kv.1 kv.2) d

/-! ### `Basis` (`basis.py` lines 33-113) -/

/-- The `Basis` object of `basis.py`. -/
structure Basis where
  monoms : List Monom
  deg : Nat
  nvars : Nat
  is_hom : Bool
  sos_sym_entries : DDict
deriving DecidableEq

/-- The all-pairs scan of `Basis.__init__` (lines 44-47): for every `i, bi`
and `j, bj` in `enumerate(self)`, append `(i, j)` to the entry list of
`sum_tuple(bi, bj)`. -/
def buildEntries (monoms : List Monom) : DDict :=
  monoms.enum.foldl (fun d ib =>
    monoms.enum.foldl (fun d jb =>
      ddAppend d (sum_tuple ib.2 jb.2) (ib.1, jb.1)) d) []

/-- `Basis.__init__(monoms)` (lines 34-47): store the monomials, set
`deg = max(sum(m) for m in monoms)`, `nvars = len(monoms[0])`,
`is_hom = sum(sum(m) != deg for m in monoms) == 0`, and build the
symmetric-entry partition.  Python raises on an empty `monoms` (both `max`
and `monoms[0]` fail), so this model is meaningful only for
`monoms ≠ []`. -/
def Basis.init (monoms : List Monom) : Basis :=
  { monoms := monoms
    deg := listMax (monoms.map List.sum)
    nvars := (monoms.headD []).length
    is_hom := monoms.all (fun m => m.sum = listMax (monoms.map List.sum))
    sos_sym_entries := buildEntries monoms }

/-- `len(basis)`. -/
def Basis.size (B : Basis) : Nat := B.monoms.length

/-- `Basis.from_degree(nvars, deg, hom)` (lines 55-57). -/
def Basis.from_degree (nvars deg : Nat) (hom : Bool) : Basis :=
  Basis.init ((if hom then basis_hom else basis_inhom) nvars deg)

/-- `Basis.from_poly_lex(poly, sparse=False)` (lines 59-79) along its dense
path: with `sparse=False` the Newton-polytope branch (floating-point convex
hull, `scipy`) is skipped and the full basis of degree
`ceil(poly_deg / 2)` is returned, homogeneous iff the polynomial is
homogeneous of its total degree.  `nvars = len(poly.gens)`. -/
def Basis.from_poly_lex_dense (nvars : Nat) (poly : SPoly) : Basis :=
  Basis.from_degree nvars ((totalDegree poly + 1) / 2) (is_homP poly (totalDegree poly))

/-- The Python exception classes this core raises. -/
inductive PyErr where
  | valueError (msg : String)
  | assertionError (msg : String)
deriving DecidableEq

/-- `Basis.check_can_represent(poly)` (lines 88-100): raise a `ValueError`
when the degree exceeds `2 * deg`, when a homogeneous basis meets a
non-homogeneous polynomial, or when some monomial is outside the
partition's key set (`len(set(poly.monoms()) - set(keys)) > 0`); otherwise
return normally. -/
def Basis.check_can_represent (B : Basis) (poly : SPoly) : Except PyErr Unit :=
  if totalDegree poly > B.deg * 2 then
    .error (.valueError "Polynomial degree must be at most!")
  else if B.is_hom && !is_homP poly (B.deg * 2) then
    .error (.valueError "Polynomial must be homogeneous!")
  else if 0 < ((poly.map Prod.fst).dedup.filter
      (fun m => !ddContains B.sos_sym_entries m)).length then
    .error (.valueError "monomials in polynomial are not in basis!")
  else
    .ok ()

/-- One iteration of the loop of `sos_sym_poly_repr` (lines 109-112), for
one `(monom, coeff)` pair: read `entries = self.sos_sym_entries[monom]` —
a *mutating* `defaultdict` access — and set
`Qp[i,j] = coeff / len(entries)` for each `(i, j)` in `entries`. -/
def reprStep (st : (Nat → Nat → ℚ) × DDict) (mc : Monom × ℚ) :
    (Nat → Nat → ℚ) × DDict :=
  let a := ddAccess st.2 mc.1
  (a.1.foldl
    (fun Qp ij =>
      fun i j => if i = ij.1 ∧ j = ij.2 then mc.2 / a.1.length else Qp i j)
    st.1,
   a.2)

/-- `Basis.sos_sym_poly_repr(poly)` (lines 103-113): start from the zero
matrix and run `reprStep` over `zip(poly.monoms(), poly.coeffs())`.
Returns the matrix (as a total function on indices) together with the
possibly-extended dictionary. -/
def Basis.sos_sym_poly_repr (B : Basis) (poly : SPoly) :
    (Nat → Nat → ℚ) × DDict :=
  poly.foldl reprStep ((fun _ _ => 0), B.sos_sym_entries)

example :
    ddGetD (Basis.init [[0],[1]]).sos_sym_entries [1] = [(0,1),(1,0)] := by
  decide

/-! ### `SOSProblem` and `add_sos_constraint` (`SoS.py` lines 16-100)

The picos `Problem` collaborator is modelled by the trace it accumulates:
the list of solver variables created (by name, in creation order), the
number of registered constraints, and the three counters of
`SOSProblem.__init__`.  Affine coefficient expressions are restricted to
the rational constants the verified claims exercise. -/

/-- A picos symmetric matrix variable: its name, side length, and the
numeric value the external solver may later write into it. -/
structure SymVariable where
  name : String
  size : Nat
  value : Option (Nat → Nat → ℚ)

/-- The observable state of an `SOSProblem` (`SoS.py` lines 21-29). -/
structure SOSProblem where
  vars : List String := []
  constraints : Nat := 0
  sos_const_count : Nat := 0
  aux_var_count : Nat := 0
  pexpect_count : Nat := 0

/-- The `SOSConstraint` handle (`SoS.py` lines 245-262): the matrix
variable `Q`, the basis, and the polynomial degree. -/
structure SOSConstraint where
  Q : SymVariable
  basis : Basis
  deg : Nat

/-- `SOSProblem.add_sos_constraint(expr, variables, name)` (lines 74-100)
with `sparse=False`, for a polynomial with rational coefficients:
increment `_sos_const_count`; default the name to `_Q{count}`; take the
total degree; `assert deg % 2 == 0` (an `AssertionError`, raised before
any solver variable or constraint is created); then build the dense basis,
create the symmetric variable `Q`, add one linear equality per key of the
partition and the PSD constraint `Q >> 0`, and return the handle.
The mutated problem state is returned in both outcomes, matching the
in-place mutation of the Python object. -/
def add_sos_constraint (prob : SOSProblem) (poly : SPoly) (nvars : Nat)
    (name : String := "") : SOSProblem × Except PyErr SOSConstraint :=
  let count := prob.sos_const_count + 1
  let prob := { prob with sos_const_count := count }
  let name := if name = "" then "_Q" ++ toString count else name
  let deg := totalDegree poly
  if deg % 2 ≠ 0 then
    (prob, .error (.assertionError "Polynomial degree must be even!"))
  else
    let basis := Basis.from_poly_lex_dense nvars poly
    let Q : SymVariable := { name := name, size := basis.size, value := none }
    let prob := { prob with vars := prob.vars ++ [name] }
    let prob := { prob with
      constraints := prob.constraints + basis.sos_sym_entries.length + 1 }
    (prob, .ok { Q := Q, basis := basis, deg := deg })

/-- `SOSConstraint.Qval` (lines 264-271): the solved value of `Q`, or a
`ValueError` when the problem has not been solved. -/
def SOSConstraint.Qval (c : SOSConstraint) : Except PyErr (Nat → Nat → ℚ) :=
  match c.Q.value with
  | none => .error (.valueError
      "Missing value for sos constraint variable! (is the problem solved?)")
  | some v => .ok v

/-- `SOSConstraint.get_chol_factor` (lines 273-278), with the numeric
linear-algebra collaborators (minimum eigenvalue, Cholesky factor) passed
in as the spec's external library calls: reads `Qval` (so it fails exactly
when `Qval` does), clips the minimum eigenvalue at `0`, and factors
`Qval - eye * mineig * 1.1`. -/
def SOSConstraint.get_chol_factor
    (eigmin : (Nat → Nat → ℚ) → ℚ)
    (chol : (Nat → Nat → ℚ) → (Nat → Nat → ℚ))
    (c : SOSConstraint) : Except PyErr (Nat → Nat → ℚ) :=
  match c.Qval with
  | .error e => .error e
  | .ok q =>
    let mineig := min (eigmin q) 0
    .ok (chol (fun i j => q i j - (if i = j then 1 else 0) * mineig * (11/10)))

/-! ### Pseudoexpectation operator (`SoS.py` lines 120-155) -/

/-- A picos affine expression, as produced by `sp_to_picos` /
`sp_mat_to_picos` and the Frobenius product with a matrix variable:
rational constants, entries of a named matrix variable, sums and
products. -/
inductive PicExpr where
  | const (c : ℚ)
  | matEntry (name : String) (i j : Nat)
  | add (a b : PicExpr)
  | mul (a b : PicExpr)

/-- Value of a picos affine expression under an assignment of the matrix
variables. -/
def PicExpr.eval (X : String → Nat → Nat → ℚ) : PicExpr → ℚ
  | .const c => c
  | .matEntry nm i j => X nm i j
  | .add a b => a.eval X + b.eval X
  | .mul a b => a.eval X * b.eval X

/-- `(sp_mat_to_picos(Qp) | X)`: the Frobenius inner product
`Σ_{i,j < n} Qp[i,j] * X[i,j]` of an `n × n` rational matrix with the
matrix variable named `Xname`. -/
def frobenius (n : Nat) (Qp : Nat → Nat → ℚ) (Xname : String) : PicExpr :=
  ((List.range n).flatMap (fun i => (List.range n).map (fun j => (i, j)))).foldl
    (fun e ij => .add e (.mul (.const (Qp ij.1 ij.2)) (.matEntry Xname ij.1 ij.2)))
    (.const 0)

/-- `SOSProblem.get_pexpect(variables, deg, hom, name)` (lines 120-155):
increment `_pexpect_count`; default the name to `_X{count}`; build the
full basis of degree `deg // 2` (the `hom` argument is not forwarded to
`from_degree` in the source, so the basis is always inhomogeneous); create
the symmetric variable `X`; for each partition key with more than one
index pair, chain `len - 1` moment-equality constraints; add `X >> 0`.
Returns the new state plus the basis and variable name captured by the
`pexpect` closure. -/
def get_pexpect (prob : SOSProblem) (nvars : Nat) (deg : Nat)
    (name : String := "") : SOSProblem × Basis × String :=
  let count := prob.pexpect_count + 1
  let prob := { prob with pexpect_count := count }
  let name := if name = "" then "_X" ++ toString count else name
  let basis := Basis.from_degree nvars (deg / 2) false
  let prob := { prob with vars := prob.vars ++ [name] }
  let prob := { prob with
    constraints := prob.constraints
      + (basis.sos_sym_entries.map (fun kv => kv.2.length - 1)).sum + 1 }
  (prob, basis, name)

/-- The closure returned by `get_pexpect` (lines 151-154), applied to a
polynomial: `check_can_represent`, then the Frobenius product of
`sos_sym_poly_repr(poly)` with `X`.  The possibly-extended partition of
the captured basis is returned alongside (the `defaultdict` access inside
`sos_sym_poly_repr` can mutate it). -/
def pexpect_apply (basis : Basis) (Xname : String) (poly : SPoly) :
    DDict × Except PyErr PicExpr :=
  match basis.check_can_represent poly with
  | .error e => (basis.sos_sym_entries, .error e)
  | .ok _ =>
    let r := basis.sos_sym_poly_repr poly
    (r.2, .ok (frobenius basis.size r.1 Xname))

/-! ### The inequality-products enumeration (`SoS.py` lines 187-196 and
226-235) -/

/-- `itertools.combinations(l, r)`: all length-`r` subsequences of `l`,
in the order Python emits them. -/
def combinations : List α → Nat → List (List α)
  | _, 0 => [[]]
  | [], _+1 => []
  | x :: xs, r+1 => (combinations xs r).map (x :: ·) ++ combinations xs (r+1)

/-- One multiplier term produced by the `ineq_prods` loop: the name given
to `poly_variable`, the name given to `add_sos_constraint`, the degree of
the multiplier polynomial, and the subset of inequalities whose product it
multiplies. -/
structure IneqProdTerm where
  pv_name : String
  sos_name : String
  mult_deg : Nat
  comb : List SPoly
deriving DecidableEq

/-- The `if ineq_prods:` loop of `poly_opt_prob` (lines 187-196): for
`r in range(len(ineqs))` and `comb in combinations(ineqs, r)`, if the sum
of the members' total degrees is at most `2*deg`, emit a fresh SOS
multiplier `poly_variable('e{i}', vars, (2*deg - total_deg)//2*2)` times
`prod(comb)` — in this builder `i` is incremented *between* naming the
polynomial variable and naming the SOS constraint. -/
def ineq_prod_terms_opt (ineqs : List SPoly) (deg : Nat) : List IneqProdTerm :=
  ((List.range ineqs.length).foldl (fun st r =>
    (combinations ineqs r).foldl (fun st comb =>
      let total_deg := (comb.map totalDegree).sum
      if total_deg ≤ 2 * deg then
        (st.1 + 1, st.2 ++ [{
          pv_name := "e" ++ toString st.1
          sos_name := "e" ++ toString (st.1 + 1)
          mult_deg := (2 * deg - total_deg) / 2 * 2
          comb := comb }])
      else st) st) ((0 : Nat), ([] : List IneqProdTerm))).2

/-- The `if ineq_prods:` loop of `poly_cert_prob` (lines 226-235): same
enumeration, except that `i` is incremented after both uses, so the
polynomial variable and the SOS constraint share the name `e{i}`. -/
def ineq_prod_terms_cert (ineqs : List SPoly) (deg : Nat) : List IneqProdTerm :=
  ((List.range ineqs.length).foldl (fun st r =>
    (combinations ineqs r).foldl (fun st comb =>
      let total_deg := (comb.map totalDegree).sum
      if total_deg ≤ 2 * deg then
        (st.1 + 1, st.2 ++ [{
          pv_name := "e" ++ toString st.1
          sos_name := "e" ++ toString st.1
          mult_deg := (2 * deg - total_deg) / 2 * 2
          comb := comb }])
      else st) st) ((0 : Nat), ([] : List IneqProdTerm))).2

/-! ## Lemma layer -/

/-! ### Dictionary lemmas -/

/-- Keys of a dictionary, in insertion order. -/
def ddKeys (d : DDict) : List Monom := d.map Prod.fst

/-- All filed values, concatenated over the entry lists. -/
def ddVals (d : DDict) : List (Nat × Nat) := (d.map Prod.snd).flatten

theorem ddContains_iff {d : DDict} {m : Monom} :
    ddContains d m = true ↔ m ∈ ddKeys d := by
  constructor
  · intro h
    simp only [ddContains, List.any_eq_true, decide_eq_true_eq] at h
    obtain ⟨kv, hkv, he⟩ := h
    exact List.mem_map.2 ⟨kv, hkv, he⟩
  · intro h
    obtain ⟨kv, hkv, he⟩ := List.mem_map.1 h
    simp only [ddContains, List.any_eq_true, decide_eq_true_eq]
    exact ⟨kv, hkv, he⟩

theorem ddGetD_ddAppend (d : DDict) (k : Monom) (v : Nat × Nat) (m : Monom) :
    ddGetD (ddAppend d k v) m =
      if m = k then ddGetD d m ++ [v] else ddGetD d m := by
  induction d with
  | nil =>
    by_cases h : m = k
    · subst h; simp [ddAppend, ddGetD]
    · have h' : ¬ k = m := fun hh => h hh.symm
      simp [ddAppend, ddGetD, h, h']
  | cons kv rest ih =>
    obtain ⟨k', vs⟩ := kv
    by_cases hk : k' = k
    · subst hk
      by_cases hm : k' = m
      · subst hm; simp [ddAppend, ddGetD]
      · have hm' : ¬ m = k' := fun hh => hm hh.symm
        simp [ddAppend, ddGetD, hm, hm']
    · by_cases hm : k' = m
      · subst hm
        have hm' : ¬ k' = k := hk
        simp [ddAppend, ddGetD, hk, hm']
      · simp [ddAppend, ddGetD, hk, hm, ih]

theorem ddContains_ddAppend (d : DDict) (k : Monom) (v : Nat × Nat) (m : Monom) :
    ddContains (ddAppend d k v) m = (ddContains d m || decide (m = k)) := by
  induction d with
  | nil =>
    by_cases h : m = k
    · subst h; simp [ddAppend, ddContains]
    · have h' : ¬ k = m := fun hh => h hh.symm
      simp [ddAppend, ddContains, h, h']
  | cons kv rest ih =>
    obtain ⟨k', vs⟩ := kv
    by_cases hk : k' = k
    · subst hk
      by_cases hm : k' = m
      · subst hm; simp [ddAppend, ddContains]
      · have hm' : ¬ m = k' := fun hh => hm hh.symm
        simp [ddAppend, ddContains, hm, hm']
    · simp only [ddAppend, hk, if_false, ddContains, List.any_cons] at ih ⊢
      rw [ih, Bool.or_assoc]

theorem ddKeys_ddAppend (d : DDict) (k : Monom) (v : Nat × Nat) :
    ddKeys (ddAppend d k v) =
      if ddContains d k then ddKeys d else ddKeys d ++ [k] := by
  induction d with
  | nil => simp [ddAppend, ddKeys, ddContains]
  | cons kv rest ih =>
    obtain ⟨k', vs⟩ := kv
    by_cases hk : k' = k
    · subst hk; simp [ddAppend, ddKeys, ddContains]
    · have hd : decide (k' = k) = false := by simp [hk]
      simp only [ddAppend, hk, if_false, ddKeys, List.map_cons, ddContains,
        List.any_cons, hd, Bool.false_or] at ih ⊢
      by_cases hc : (rest.any fun kv => decide (kv.1 = k)) = true
      · simp only [hc, if_true] at ih ⊢
        rw [ih]
        simp
      · simp only [Bool.not_eq_true] at hc
        simp only [hc, Bool.false_eq_true, if_false] at ih ⊢
        rw [ih]
        simp

theorem ddKeys_nodup_ddAppend {d : DDict} (k : Monom) (v : Nat × Nat)
    (h : (ddKeys d).Nodup) : (ddKeys (ddAppend d k v)).Nodup := by
  rw [ddKeys_ddAppend]
  by_cases hc : ddContains d k = true
  · simp [hc, h]
  · simp only [Bool.not_eq_true] at hc
    simp only [hc, Bool.false_eq_true, if_false]
    refine List.Nodup.append h (List.nodup_singleton k) ?_
    intro x hx hx'
    simp only [List.mem_singleton] at hx'
    subst hx'
    rw [← ddContains_iff] at hx
    simp [hx] at hc

theorem ddVals_ddAppend_perm (d : DDict) (k : Monom) (v : Nat × Nat) :
    (ddVals (ddAppend d k v)).Perm (v :: ddVals d) := by
  induction d with
  | nil => simp [ddAppend, ddVals]
  | cons kv rest ih =>
    obtain ⟨k', vs⟩ := kv
    by_cases hk : k' = k
    · simp [ddAppend, ddVals, hk]
    · simp only [ddAppend, hk, if_false, ddVals, List.map_cons, List.flatten_cons]
      exact (List.Perm.append_left vs ih).trans List.perm_middle

theorem ddKeying_ddAppend {P : Monom → Nat × Nat → Prop} {d : DDict}
    {k : Monom} {v : Nat × Nat}
    (hd : ∀ kv ∈ d, ∀ p ∈ kv.2, P kv.1 p) (hkv : P k v) :
    ∀ kv ∈ ddAppend d k v, ∀ p ∈ kv.2, P kv.1 p := by
  induction d with
  | nil =>
    intro kv hkv' p hp
    simp [ddAppend] at hkv'
    subst hkv'
    simp at hp
    subst hp
    exact hkv
  | cons kv0 rest ih =>
    obtain ⟨k', vs⟩ := kv0
    by_cases hk : k' = k
    · subst hk
      intro kv hkv' p hp
      simp [ddAppend] at hkv'
      rcases hkv' with h | h
      · subst h
        simp at hp
        rcases hp with hp | hp
        · exact hd (k', vs) (by simp) p hp
        · subst hp; exact hkv
      · exact hd _ (by simp [h]) _ hp
    · intro kv hkv' p hp
      simp [ddAppend, hk] at hkv'
      rcases hkv' with h | h
      · subst h; exact hd _ (by simp) _ hp
      · exact ih (fun kv h' => hd kv (by simp [h'])) _ h _ hp

theorem ddGetD_ddInsertAll (l : List (Monom × (Nat × Nat))) (d : DDict) (m : Monom) :
    ddGetD (ddInsertAll d l) m
      = ddGetD d m ++ (l.filter (fun kv => kv.1 = m)).map Prod.snd := by
  induction l generalizing d with
  | nil => simp [ddInsertAll]
  | cons x xs ih =>
    have hstep : ddInsertAll d (x :: xs) = ddInsertAll (ddAppend d x.1 x.2) xs := rfl
    rw [hstep, ih, ddGetD_ddAppend, List.filter_cons]
    by_cases h : x.1 = m
    · have h' : m = x.1 := h.symm
      rw [if_pos h', if_pos (by simpa using h), List.map_cons, List.append_assoc,
        List.singleton_append]
    · have h' : ¬ m = x.1 := fun hh => h hh.symm
      rw [if_neg h', if_neg (by simpa using h)]

theorem ddContains_ddInsertAll (l : List (Monom × (Nat × Nat))) (d : DDict)
    (m : Monom) :
    ddContains (ddInsertAll d l) m
      = (ddContains d m || l.any (fun kv => kv.1 = m)) := by
  induction l generalizing d with
  | nil => simp [ddInsertAll]
  | cons x xs ih =>
    have hstep : ddInsertAll d (x :: xs) = ddInsertAll (ddAppend d x.1 x.2) xs := rfl
    rw [hstep, ih, ddContains_ddAppend, List.any_cons, Bool.or_assoc]
    have hsymm : decide (m = x.1) = decide (x.1 = m) := by
      by_cases h : x.1 = m
      · rw [decide_eq_true h.symm, decide_eq_true h]
      · rw [decide_eq_false (fun hh => h hh.symm), decide_eq_false h]
    rw [hsymm]

theorem ddKeys_nodup_ddInsertAll (l : List (Monom × (Nat × Nat))) (d : DDict)
    (h : (ddKeys d).Nodup) : (ddKeys (ddInsertAll d l)).Nodup := by
  induction l generalizing d with
  | nil => exact h
  | cons x xs ih => exact ih _ (ddKeys_nodup_ddAppend x.1 x.2 h)

theorem ddVals_ddInsertAll_perm (l : List (Monom × (Nat × Nat))) (d : DDict) :
    (ddVals (ddInsertAll d l)).Perm (ddVals d ++ l.map Prod.snd) := by
  induction l generalizing d with
  | nil => simp [ddInsertAll]
  | cons x xs ih =>
    have hstep : ddInsertAll d (x :: xs) = ddInsertAll (ddAppend d x.1 x.2) xs := rfl
    rw [hstep]
    refine (ih _).trans ?_
    refine (List.Perm.append_right (xs.map Prod.snd) (ddVals_ddAppend_perm d x.1 x.2)).trans ?_
    simpa using List.perm_middle.symm

theorem ddKeying_ddInsertAll {P : Monom → Nat × Nat → Prop}
    (l : List (Monom × (Nat × Nat))) (d : DDict)
    (hd : ∀ kv ∈ d, ∀ p ∈ kv.2, P kv.1 p) (hl : ∀ x ∈ l, P x.1 x.2) :
    ∀ kv ∈ ddInsertAll d l, ∀ p ∈ kv.2, P kv.1 p := by
  induction l generalizing d with
  | nil => exact hd
  | cons x xs ih =>
    exact ih _ (ddKeying_ddAppend hd (hl x (by simp)))
      (fun y hy => hl y (by simp [hy]))

theorem ddAccess_of_contains (d : DDict) (k : Monom)
    (h : ddContains d k = true) : ddAccess d k = (ddGetD d k, d) := by
  induction d with
  | nil => simp [ddContains] at h
  | cons kv rest ih =>
    obtain ⟨k', vs⟩ := kv
    by_cases hk : k' = k
    · subst hk; simp [ddAccess, ddGetD]
    · have hrest : ddContains rest k = true := by
        simp only [ddContains, List.any_cons, Bool.or_eq_true,
          decide_eq_true_eq] at h
        rcases h with h | h
        · exact absurd h hk
        · exact h
      simp [ddAccess, ddGetD, hk, ih hrest]

/-! ### Generic fold lemmas -/

theorem foldl_flatMap (f : γ → β → γ) (g : α → List β) (l : List α) (init : γ) :
    (l.flatMap g).foldl f init
      = l.foldl (fun acc x => (g x).foldl f acc) init := by
  induction l generalizing init with
  | nil => rfl
  | cons x xs ih => rw [List.flatMap_cons, List.foldl_append, ih]; rfl

theorem enum_eq_map_range (l : List Monom) :
    l.enum = (List.range l.length).map (fun i => (i, l.getD i [])) := by
  rw [List.enum_eq_zip_range]
  induction l with
  | nil => rfl
  | cons x xs ih =>
    simp only [List.length_cons, List.range_succ_eq_map, List.zip_cons_cons,
      List.map_cons, List.getD_cons_zero]
    congr 1
    rw [List.zip_map_left, ih, List.map_map, List.map_map]
    apply List.map_congr_left
    intro i _
    simp

/-! ### The symmetric-entry partition of a freshly built `Basis` -/

/-- All index pairs `(i, j)` with `i, j < n`, in the order of the
`__init__` double loop. -/
def allPairs (n : Nat) : List (Nat × Nat) :=
  (List.range n).flatMap (fun i => (List.range n).map (fun j => (i, j)))

theorem allPairs_eq_product (n : Nat) :
    allPairs n = List.range n ×ˢ List.range n := rfl

theorem nodup_allPairs (n : Nat) : (allPairs n).Nodup := by
  rw [allPairs_eq_product]
  exact (List.nodup_range n).product (List.nodup_range n)

theorem mem_allPairs {n : Nat} {p : Nat × Nat} :
    p ∈ allPairs n ↔ p.1 < n ∧ p.2 < n := by
  obtain ⟨a, b⟩ := p
  rw [allPairs_eq_product]
  simp [List.mem_product]

/-- The key/value stream fed to the dictionary by the `__init__` double
loop, flattened. -/
def allKV (monoms : List Monom) : List (Monom × (Nat × Nat)) :=
  (allPairs monoms.length).map
    (fun p => (sum_tuple (monoms.getD p.1 []) (monoms.getD p.2 []), p))

theorem buildEntries_eq (monoms : List Monom) :
    buildEntries monoms = ddInsertAll [] (allKV monoms) := by
  unfold buildEntries ddInsertAll allKV allPairs
  rw [enum_eq_map_range]
  simp only [List.foldl_map, List.map_flatMap, List.map_map, foldl_flatMap]
  rfl

theorem ddGetD_buildEntries (monoms : List Monom) (m : Monom) :
    ddGetD (buildEntries monoms) m
      = (allPairs monoms.length).filter
          (fun p => sum_tuple (monoms.getD p.1 []) (monoms.getD p.2 []) = m) := by
  rw [buildEntries_eq, ddGetD_ddInsertAll]
  unfold allKV
  rw [List.filter_map, List.map_map]
  have h1 : ddGetD [] m = [] := rfl
  rw [h1, List.nil_append]
  have h2 : (Prod.snd ∘ fun p : Nat × Nat =>
      (sum_tuple (monoms.getD p.1 []) (monoms.getD p.2 []), p)) = id := rfl
  rw [h2, List.map_id]
  rfl

theorem ddContains_buildEntries (monoms : List Monom) (m : Monom) :
    ddContains (buildEntries monoms) m = true ↔
      ∃ p ∈ allPairs monoms.length,
        sum_tuple (monoms.getD p.1 []) (monoms.getD p.2 []) = m := by
  rw [buildEntries_eq, ddContains_ddInsertAll]
  have h0 : ddContains [] m = false := rfl
  rw [h0, Bool.false_or, List.any_eq_true]
  constructor
  · rintro ⟨kv, hkv, he⟩
    obtain ⟨p, hp, rfl⟩ := List.mem_map.1 hkv
    exact ⟨p, hp, by simpa using he⟩
  · rintro ⟨p, hp, he⟩
    exact ⟨_, List.mem_map.2 ⟨p, hp, rfl⟩, by simpa using he⟩

theorem ddVals_buildEntries_perm (monoms : List Monom) :
    (ddVals (buildEntries monoms)).Perm (allPairs monoms.length) := by
  rw [buildEntries_eq]
  refine (ddVals_ddInsertAll_perm _ _).trans ?_
  have h0 : ddVals ([] : DDict) = [] := rfl
  rw [h0, List.nil_append]
  unfold allKV
  rw [List.map_map]
  have h2 : (Prod.snd ∘ fun p : Nat × Nat =>
      (sum_tuple (monoms.getD p.1 []) (monoms.getD p.2 []), p)) = id := rfl
  rw [h2, List.map_id]

theorem ddKeys_buildEntries_nodup (monoms : List Monom) :
    (ddKeys (buildEntries monoms)).Nodup := by
  rw [buildEntries_eq]
  exact ddKeys_nodup_ddInsertAll _ _ List.nodup_nil

theorem buildEntries_keying (monoms : List Monom) :
    ∀ kv ∈ buildEntries monoms, ∀ p ∈ kv.2,
      p.1 < monoms.length ∧ p.2 < monoms.length ∧
        kv.1 = sum_tuple (monoms.getD p.1 []) (monoms.getD p.2 []) := by
  rw [buildEntries_eq]
  refine ddKeying_ddInsertAll
    (P := fun m q => q.1 < monoms.length ∧ q.2 < monoms.length ∧
      m = sum_tuple (monoms.getD q.1 []) (monoms.getD q.2 [])) _ _ (by simp) ?_
  intro x hx
  obtain ⟨p, hp, rfl⟩ := List.mem_map.1 hx
  obtain ⟨h1, h2⟩ := mem_allPairs.1 hp
  exact ⟨h1, h2, rfl⟩

/-- **C2**: for every `Basis` of size `n`, the symmetric-entry partition
built at construction is a true partition of the index-pair space: the
entry lists, concatenated over all monomial keys, are a permutation of the
duplicate-free enumeration of `{0..n-1} × {0..n-1}` (so the lists are
pairwise disjoint and their union is exactly the index-pair space), the
keys are distinct, and each pair `(i, j)` is filed under the elementwise
sum of the `i`-th and `j`-th basis monomials. -/
theorem sos_sym_entries_partition (monoms : List Monom) (hne : monoms ≠ []) :
    (ddVals (Basis.init monoms).sos_sym_entries).Perm (allPairs monoms.length)
    ∧ (ddVals (Basis.init monoms).sos_sym_entries).Nodup
    ∧ (ddKeys (Basis.init monoms).sos_sym_entries).Nodup
    ∧ ∀ kv ∈ (Basis.init monoms).sos_sym_entries, ∀ p ∈ kv.2,
        p.1 < monoms.length ∧ p.2 < monoms.length ∧
          kv.1 = sum_tuple (monoms.getD p.1 []) (monoms.getD p.2 []) := by
  refine ⟨ddVals_buildEntries_perm monoms, ?_,
    ddKeys_buildEntries_nodup monoms, buildEntries_keying monoms⟩
  exact (ddVals_buildEntries_perm monoms).nodup_iff.2 (nodup_allPairs _)

/-- Witness for C2 at the concrete basis `[1, x]` of one variable. -/
theorem sos_sym_entries_partition_witness :
    ([[0],[1]] : List Monom) ≠ []
    ∧ ((ddVals (Basis.init [[0],[1]]).sos_sym_entries).Perm (allPairs 2)
      ∧ (ddVals (Basis.init [[0],[1]]).sos_sym_entries).Nodup
      ∧ (ddKeys (Basis.init [[0],[1]]).sos_sym_entries).Nodup
      ∧ ∀ kv ∈ (Basis.init [[0],[1]]).sos_sym_entries, ∀ p ∈ kv.2,
          p.1 < 2 ∧ p.2 < 2 ∧
            kv.1 = sum_tuple (([[0],[1]] : List Monom).getD p.1 [])
              (([[0],[1]] : List Monom).getD p.2 [])) :=
  ⟨by decide, sos_sym_entries_partition [[0],[1]] (by decide)⟩

/-! ### Counting lemmas for `basis_hom` / `basis_inhom` -/

theorem choose_sum_range (n m : Nat) :
    ((List.range (m+1)).map (fun k => Nat.choose (n+k) k)).sum
      = Nat.choose (n+m+1) m := by
  induction m with
  | zero =>
    rw [show List.range 1 = [0] from rfl]
    simp
  | succ m ih =>
    rw [List.range_succ, List.map_append, List.sum_append, ih]
    simp only [List.map_cons, List.map_nil, List.sum_cons, List.sum_nil, add_zero]
    have h : n + (m+1) = n + m + 1 := by omega
    rw [h]
    exact (Nat.choose_succ_succ _ _).symm

theorem basis_hom_length (n d : Nat) :
    (basis_hom (n+1) d).length = Nat.choose (n+d) d := by
  induction n generalizing d with
  | zero => simp [basis_hom, Nat.choose_self]
  | succ n ih =>
    cases d with
    | zero => simp [basis_hom]
    | succ d =>
      rw [show basis_hom (n+2) (d+1)
          = (List.range (d+2)).flatMap (fun di =>
              (basis_hom (n+1) di).map (fun b => b ++ [d+1-di])) from rfl]
      rw [List.length_flatMap]
      have hmap : List.map (List.length ∘ fun di =>
            (basis_hom (n+1) di).map (fun b => b ++ [d+1-di])) (List.range (d+2))
          = (List.range (d+2)).map (fun k => Nat.choose (n+k) k) := by
        apply List.map_congr_left
        intro di _
        simp [ih di]
      rw [hmap, choose_sum_range]
      congr 1
      omega

theorem basis_inhom_length (n d : Nat) :
    (basis_inhom n d).length = Nat.choose (n+d) d := by
  rw [basis_inhom, List.length_map]
  exact basis_hom_length n d

/-! ### Divergence of the generator at `n = 0, d ≥ 1`, and adequacy of the
fuel-free version for `n ≥ 1` -/

theorem optFlatMap_eq_none {l : List α} {g : α → Option (List β)} (x : α)
    (hx : x ∈ l) (hg : g x = none) : optFlatMap l g = none := by
  induction l with
  | nil => simp at hx
  | cons y ys ih =>
    rcases List.mem_cons.1 hx with h | h
    · subst h
      unfold optFlatMap
      rw [hg]
    · unfold optFlatMap
      rw [ih h]
      cases g y <;> rfl

theorem optFlatMap_eq_some {l : List α} {g : α → Option (List β)}
    {h : α → List β} (hg : ∀ x ∈ l, g x = some (h x)) :
    optFlatMap l g = some (l.flatMap h) := by
  induction l with
  | nil => rfl
  | cons y ys ih =>
    unfold optFlatMap
    rw [hg y (by simp), ih (fun x hx => hg x (by simp [hx])), List.flatMap_cons]

theorem basis_homF_diverges_nonpos :
    ∀ (fuel : Nat) (n : Int) (d : Nat), n ≤ 0 → 1 ≤ d →
      basis_homF fuel n d = none
  | 0, _, _, _, _ => rfl
  | fuel+1, n, d, hn, hd => by
    unfold basis_homF
    rw [if_neg (by omega), if_neg (by omega)]
    refine optFlatMap_eq_none d (by simp) ?_
    rw [basis_homF_diverges_nonpos fuel (n-1) d (by omega) hd]
    rfl

theorem basis_homF_adequate :
    ∀ (n : Nat), ∀ (d fuel : Nat), n + 1 ≤ fuel →
      basis_homF fuel ((n+1 : Nat) : Int) d = some (basis_hom (n+1) d) := by
  intro n
  induction n with
  | zero =>
    intro d fuel hf
    obtain ⟨f, rfl⟩ : ∃ f, fuel = f + 1 := ⟨fuel - 1, by omega⟩
    unfold basis_homF
    rw [if_pos (by norm_num)]
    simp [basis_hom]
  | succ n ih =>
    intro d fuel hf
    obtain ⟨f, rfl⟩ : ∃ f, fuel = f + 1 := ⟨fuel - 1, by omega⟩
    unfold basis_homF
    rw [if_neg (by push_cast; omega)]
    cases d with
    | zero =>
      rw [if_pos rfl]
      have ht : ((n+2 : Nat) : Int).toNat = n + 2 := Int.toNat_natCast _
      rw [ht]
      rfl
    | succ d =>
      rw [if_neg (by omega)]
      have hcast : ((n+2 : Nat) : Int) - 1 = ((n+1 : Nat) : Int) := by
        push_cast
        ring
      rw [hcast]
      rw [optFlatMap_eq_some
        (h := fun di => (basis_hom (n+1) di).map (fun b => b ++ [d+1-di]))
        (fun di _ => by rw [ih di f (by omega)]; rfl)]
      congr 1

/-- **C3 (counterexample)**: at `n = 0, d = 1` the Python generator
`basis_hom(0, 1)` never terminates (the recursion on `n - 1` never reaches
a base case), so it does not yield the `C(0+1-1, 1) = 0` tuples the claim
requires: no fuel bound makes the transcribed recursion produce a value. -/
theorem C3_counterexample : basisHomDiverges 0 1 :=
  fun fuel => basis_homF_diverges_nonpos fuel 0 1 le_rfl le_rfl

/-- **C3 (amended)**: for every `n ≥ 1` and `d ≥ 0`, `basis_hom(n, d)`
yields exactly `C(n+d-1, d)` exponent tuples, and for every `n ≥ 0` and
`d ≥ 0`, `basis_inhom(n, d)` yields exactly `C(n+d, d)` exponent tuples.
(The unamended claim also asserted the `basis_hom` count at `n = 0`, where
the Python call diverges — see the counterexample above.) -/
theorem C3_basis_counts (n d : Nat) :
    (1 ≤ n → (basis_hom n d).length = Nat.choose (n - 1 + d) d)
    ∧ (basis_inhom n d).length = Nat.choose (n + d) d := by
  constructor
  · intro hn
    obtain ⟨m, rfl⟩ : ∃ m, n = m + 1 := ⟨n - 1, by omega⟩
    rw [basis_hom_length]
    have h : m + 1 - 1 + d = m + d := by omega
    rw [h]
  · exact basis_inhom_length n d

/-- Witness for C3 at `n = 2, d = 2`. -/
theorem C3_basis_counts_witness :
    (basis_hom 2 2).length = Nat.choose 3 2
    ∧ (basis_inhom 2 2).length = Nat.choose 4 2 :=
  ⟨by rw [(C3_basis_counts 2 2).1 (by decide)], (C3_basis_counts 2 2).2⟩

/-! ### `check_can_represent` (C4) -/

theorem extra_monoms_pos_iff (B : Basis) (poly : SPoly) :
    (0 < ((poly.map Prod.fst).dedup.filter
        (fun m => !ddContains B.sos_sym_entries m)).length) ↔
      ∃ m ∈ poly.map Prod.fst, ddContains B.sos_sym_entries m = false := by
  rw [List.length_pos]
  constructor
  · intro h
    obtain ⟨m, hm⟩ := List.exists_mem_of_ne_nil _ h
    rw [List.mem_filter] at hm
    exact ⟨m, List.mem_dedup.1 hm.1, by simpa using hm.2⟩
  · rintro ⟨m, hm, hc⟩
    intro hnil
    have hmem : m ∈ (poly.map Prod.fst).dedup.filter
        (fun m => !ddContains B.sos_sym_entries m) :=
      List.mem_filter.2 ⟨List.mem_dedup.2 hm, by simp [hc]⟩
    rw [hnil] at hmem
    simp at hmem

theorem check_err_iff (B : Basis) (poly : SPoly) :
    B.check_can_represent poly ≠ .ok () ↔
      (B.deg * 2 < totalDegree poly
        ∨ (B.is_hom = true ∧ is_homP poly (B.deg * 2) = false)
        ∨ ∃ m ∈ poly.map Prod.fst, ddContains B.sos_sym_entries m = false) := by
  unfold Basis.check_can_represent
  split_ifs with h1 h2 h3
  · exact iff_of_true (by simp) (Or.inl h1)
  · refine iff_of_true (by simp) (Or.inr (Or.inl ?_))
    simpa [Bool.and_eq_true, Bool.not_eq_true'] using h2
  · exact iff_of_true (by simp) (Or.inr (Or.inr ((extra_monoms_pos_iff B poly).1 h3)))
  · refine iff_of_false (by simp) ?_
    push_neg
    refine ⟨by omega, ?_, ?_⟩
    · intro hhom
      by_contra hP
      exact h2 (by simp [hhom, hP])
    · intro m hm
      by_contra hc
      exact h3 ((extra_monoms_pos_iff B poly).2 ⟨m, hm, by simpa using hc⟩)

/-- **C4**: `check_can_represent(poly)` raises an error if and only if the
polynomial's total degree exceeds `2 * basis.deg`, or the basis is
homogeneous but the polynomial is not homogeneous of degree
`2 * basis.deg`, or the polynomial contains a monomial absent from the
symmetric-entry partition's key set; otherwise it returns normally. -/
theorem check_can_represent_spec (B : Basis) (poly : SPoly) :
    B.check_can_represent poly ≠ .ok () ↔
      (B.deg * 2 < totalDegree poly
        ∨ (B.is_hom = true ∧ is_homP poly (B.deg * 2) = false)
        ∨ ∃ m ∈ poly.map Prod.fst, ddContains B.sos_sym_entries m = false) :=
  check_err_iff B poly

/-! ### `add_sos_constraint` and the degree-parity assert (C5, C10) -/

/-- Discriminates the `ValueError` exception class. -/
def isValueError : Except PyErr α → Bool
  | .error (.valueError _) => true
  | _ => false

/-- Discriminates the `AssertionError` exception class. -/
def isAssertionError : Except PyErr α → Bool
  | .error (.assertionError _) => true
  | _ => false

/-- An `SOSProblem()` as freshly constructed. -/
def emptyProblem : SOSProblem := {}

theorem add_sos_constraint_odd (prob : SOSProblem) (poly : SPoly) (nvars : Nat)
    (name : String) (h : totalDegree poly % 2 = 1) :
    add_sos_constraint prob poly nvars name
      = ({ prob with sos_const_count := prob.sos_const_count + 1 },
         .error (.assertionError "Polynomial degree must be even!")) := by
  simp only [add_sos_constraint]
  rw [if_pos (show totalDegree poly % 2 ≠ 0 by omega)]

theorem add_sos_constraint_even_state (prob : SOSProblem) (poly : SPoly)
    (nvars : Nat) (h : totalDegree poly % 2 = 0) :
    (add_sos_constraint prob poly nvars "").1.vars
      = prob.vars ++ ["_Q" ++ toString (prob.sos_const_count + 1)] := by
  simp only [add_sos_constraint]
  rw [if_neg (show ¬ totalDegree poly % 2 ≠ 0 by omega)]
  simp

/-- **C5 (counterexample)**: the degree-parity failure on `x³` is an
`AssertionError` (from the bare `assert` statement in the source), not a
`ValueError` as the claim states. -/
theorem C5_counterexample :
    isAssertionError (add_sos_constraint emptyProblem [([3], (1:ℚ))] 1 "").2 = true
    ∧ isValueError (add_sos_constraint emptyProblem [([3], (1:ℚ))] 1 "").2 = false := by
  constructor <;> rfl

/-- **C5 (amended)**: calling `add_sos_constraint` on a polynomial of odd
total degree (e.g. `x³`) fails with a degree-parity error signaled as an
*assertion* error (the source uses a bare `assert`, so the exception class
is `AssertionError`, not `ValueError`), and the failure occurs before any
solver variable is created: the failing call returns the problem state
with no new variable, no new constraint, and only the constraint counter
advanced. -/
theorem C5_odd_degree_assert (prob : SOSProblem) (poly : SPoly) (nvars : Nat)
    (name : String) (h : totalDegree poly % 2 = 1) :
    isAssertionError (add_sos_constraint prob poly nvars name).2 = true
    ∧ (add_sos_constraint prob poly nvars name).2
        = .error (.assertionError "Polynomial degree must be even!")
    ∧ (add_sos_constraint prob poly nvars name).1.vars = prob.vars
    ∧ (add_sos_constraint prob poly nvars name).1.constraints = prob.constraints := by
  rw [add_sos_constraint_odd prob poly nvars name h]
  exact ⟨rfl, rfl, rfl, rfl⟩

/-- Witness for C5 at `x³` over one variable on a fresh problem. -/
theorem C5_odd_degree_assert_witness :
    totalDegree [([3], (1:ℚ))] % 2 = 1
    ∧ (isAssertionError (add_sos_constraint emptyProblem [([3], (1:ℚ))] 1 "").2 = true
      ∧ (add_sos_constraint emptyProblem [([3], (1:ℚ))] 1 "").2
          = .error (.assertionError "Polynomial degree must be even!")
      ∧ (add_sos_constraint emptyProblem [([3], (1:ℚ))] 1 "").1.vars
          = emptyProblem.vars
      ∧ (add_sos_constraint emptyProblem [([3], (1:ℚ))] 1 "").1.constraints
          = emptyProblem.constraints) :=
  ⟨rfl, C5_odd_degree_assert emptyProblem [([3], (1:ℚ))] 1 "" rfl⟩

/-- **C10**: when `add_sos_constraint` raises on the even-degree check,
the `SOSProblem` gains no solver variable and no constraint, but its
internal SOS-constraint counter has already been incremented, so the
auto-generated default name of the next SOS constraint (here on the
even-degree polynomial `x²`) is `_Q(k+2)` instead of `_Q(k+1)` — shifted
by the failed call. -/
theorem C10_failed_call_shifts_name (prob : SOSProblem) (poly : SPoly)
    (nvars : Nat) (h : totalDegree poly % 2 = 1) :
    (add_sos_constraint prob poly nvars "").1.vars = prob.vars
    ∧ (add_sos_constraint prob poly nvars "").1.constraints = prob.constraints
    ∧ (add_sos_constraint prob poly nvars "").1.sos_const_count
        = prob.sos_const_count + 1
    ∧ (add_sos_constraint (add_sos_constraint prob poly nvars "").1
          [([2], (1:ℚ))] 1 "").1.vars
        = prob.vars ++ ["_Q" ++ toString (prob.sos_const_count + 2)] := by
  rw [add_sos_constraint_odd prob poly nvars "" h]
  refine ⟨rfl, rfl, rfl, ?_⟩
  rw [add_sos_constraint_even_state
    { prob with sos_const_count := prob.sos_const_count + 1 } [([2], (1:ℚ))] 1 rfl]

/-- Witness for C10: the failed `x³` call on a fresh problem shifts the
next default constraint name to `_Q2`. -/
theorem C10_failed_call_shifts_name_witness :
    totalDegree [([3], (1:ℚ))] % 2 = 1
    ∧ ((add_sos_constraint emptyProblem [([3], (1:ℚ))] 1 "").1.vars
          = emptyProblem.vars
      ∧ (add_sos_constraint emptyProblem [([3], (1:ℚ))] 1 "").1.constraints
          = emptyProblem.constraints
      ∧ (add_sos_constraint emptyProblem [([3], (1:ℚ))] 1 "").1.sos_const_count
          = emptyProblem.sos_const_count + 1
      ∧ (add_sos_constraint
            (add_sos_constraint emptyProblem [([3], (1:ℚ))] 1 "").1
            [([2], (1:ℚ))] 1 "").1.vars
          = emptyProblem.vars
            ++ ["_Q" ++ toString (emptyProblem.sos_const_count + 2)]) :=
  ⟨rfl, C10_failed_call_shifts_name emptyProblem [([3], (1:ℚ))] 1 rfl⟩

/-! ### `Qval` and the certificate extractor (C8) -/

/-- **C8**: reading `Qval` on an `SOSConstraint` whose matrix variable `Q`
has no value yet raises a `ValueError` — and so does `get_chol_factor`
(and hence `get_sos_decomp`, which calls it), for any choice of the
numeric eigenvalue/Cholesky collaborators; when `Q` has a value, `Qval`
returns it without error. -/
theorem Qval_spec (c : SOSConstraint) :
    (c.Q.value = none →
      c.Qval = .error (.valueError
        "Missing value for sos constraint variable! (is the problem solved?)")
      ∧ ∀ eigmin chol, c.get_chol_factor eigmin chol
          = .error (.valueError
            "Missing value for sos constraint variable! (is the problem solved?)"))
    ∧ ∀ v, c.Q.value = some v → c.Qval = .ok v := by
  constructor
  · intro h
    have hq : c.Qval = .error (.valueError
        "Missing value for sos constraint variable! (is the problem solved?)") := by
      unfold SOSConstraint.Qval
      rw [h]
    refine ⟨hq, fun eigmin chol => ?_⟩
    unfold SOSConstraint.get_chol_factor
    rw [hq]
  · intro v h
    unfold SOSConstraint.Qval
    rw [h]

/-- An unsolved constraint handle over the basis `[x]`. -/
def cQunset : SOSConstraint :=
  { Q := { name := "_Q1", size := 1, value := none },
    basis := Basis.init [[1]], deg := 2 }

/-- The same handle after the external solver wrote a value into `Q`. -/
def cQset : SOSConstraint :=
  { cQunset with Q := { name := "_Q1", size := 1, value := some (fun _ _ => 0) } }

/-- Witness for C8: `Qval` errors on the unset handle and returns the
stored value on the set one. -/
theorem Qval_spec_witness :
    cQunset.Qval = .error (.valueError
      "Missing value for sos constraint variable! (is the problem solved?)")
    ∧ cQset.Qval = .ok (fun _ _ => (0:ℚ)) :=
  ⟨((Qval_spec cQunset).1 rfl).1, (Qval_spec cQset).2 _ rfl⟩

/-! ### Mutation behaviour of `sos_sym_poly_repr` (C9) -/

/-- Pointwise write of the value `v` at every index pair of `l`. -/
def updAll (Q : Nat → Nat → ℚ) (l : Entries) (v : ℚ) : Nat → Nat → ℚ :=
  l.foldl (fun Qp ij => fun i j => if i = ij.1 ∧ j = ij.2 then v else Qp i j) Q

theorem updAll_apply (Q : Nat → Nat → ℚ) (l : Entries) (v : ℚ) (i j : Nat) :
    updAll Q l v i j = if (i, j) ∈ l then v else Q i j := by
  induction l generalizing Q with
  | nil => simp [updAll]
  | cons p rest ih =>
    have hstep : updAll Q (p :: rest) v
        = updAll (fun i j => if i = p.1 ∧ j = p.2 then v else Q i j) rest v := rfl
    rw [hstep, ih]
    by_cases hr : (i, j) ∈ rest
    · simp [hr]
    · by_cases hp : (i, j) = p
      · have : i = p.1 ∧ j = p.2 := by
          rw [← hp]
          exact ⟨rfl, rfl⟩
        simp [hr, hp, this]
      · have : ¬ (i = p.1 ∧ j = p.2) := by
          intro ⟨h1, h2⟩
          exact hp (by rw [h1, h2])
        simp [hr, hp, this]

theorem reprStep_of_contains (st : (Nat → Nat → ℚ) × DDict) (mc : Monom × ℚ)
    (h : ddContains st.2 mc.1 = true) :
    reprStep st mc
      = (updAll st.1 (ddGetD st.2 mc.1)
          (mc.2 / (ddGetD st.2 mc.1).length), st.2) := by
  unfold reprStep
  rw [ddAccess_of_contains _ _ h]
  rfl

theorem foldl_reprStep_dict (ps : SPoly) (D : DDict)
    (hkeys : ∀ mc ∈ ps, ddContains D mc.1 = true) :
    ∀ Q0 : Nat → Nat → ℚ, (ps.foldl reprStep (Q0, D)).2 = D := by
  induction ps with
  | nil => intro Q0; rfl
  | cons mc rest ih =>
    intro Q0
    have h1 : List.foldl reprStep (Q0, D) (mc :: rest)
        = List.foldl reprStep (reprStep (Q0, D) mc) rest := rfl
    rw [h1, reprStep_of_contains (Q0, D) mc (hkeys mc (by simp))]
    exact ih (fun x hx => hkeys x (by simp [hx])) _

/-- **C9 (counterexample)**: a `Basis` is *not* immutable under every
subsequent operation: `sos_sym_poly_repr` applied to a polynomial
containing a monomial absent from the partition's keys (here `x⁵` against
the basis `[1, x]`) mutates the symmetric-entry partition, because the
`defaultdict` read `self.sos_sym_entries[monom]` inserts the missing key
with an empty entry list. -/
theorem C9_counterexample :
    ((Basis.init [[0],[1]]).sos_sym_poly_repr [([5], (1:ℚ))]).2
      ≠ (Basis.init [[0],[1]]).sos_sym_entries := by decide

/-- **C9 (amended)**: a `Basis` is immutable after construction under
iteration, `to_sym`, `check_can_represent` (all read-only in the source),
and under `sos_sym_poly_repr` applied to any polynomial all of whose
monomials are among the partition's keys: the monomial list, `deg`,
`nvars`, `is_hom` and the symmetric-entry partition are unchanged.  (A
`sos_sym_poly_repr` call with a monomial outside the key set instead
inserts that monomial into the partition with an empty entry list — see
the counterexample.) -/
theorem C9_basis_immutable (monoms : List Monom) (hne : monoms ≠ [])
    (poly : SPoly)
    (hkeys : ∀ m ∈ poly.map Prod.fst,
      ddContains (Basis.init monoms).sos_sym_entries m = true) :
    ((Basis.init monoms).sos_sym_poly_repr poly).2
        = (Basis.init monoms).sos_sym_entries
    ∧ { Basis.init monoms with
          sos_sym_entries := ((Basis.init monoms).sos_sym_poly_repr poly).2 }
        = Basis.init monoms := by
  have h1 : ((Basis.init monoms).sos_sym_poly_repr poly).2
      = (Basis.init monoms).sos_sym_entries :=
    foldl_reprStep_dict poly _
      (fun mc hmc => hkeys mc.1 (List.mem_map.2 ⟨mc, hmc, rfl⟩)) _
  exact ⟨h1, by rw [h1]⟩

/-- Witness for C9 at the basis `[1, x]` and the in-basis polynomial `x`. -/
theorem C9_basis_immutable_witness :
    ([[0],[1]] : List Monom) ≠ []
    ∧ (∀ m ∈ ([([1], (1:ℚ))] : SPoly).map Prod.fst,
        ddContains (Basis.init [[0],[1]]).sos_sym_entries m = true)
    ∧ ((Basis.init [[0],[1]]).sos_sym_poly_repr [([1], (1:ℚ))]).2
        = (Basis.init [[0],[1]]).sos_sym_entries :=
  ⟨by decide, by decide,
    (C9_basis_immutable [[0],[1]] (by decide) [([1], (1:ℚ))] (by decide)).1⟩

/-! ### The round-trip `p = bᵀ Qp b` (C1) -/

/-- The class of `m`: all index pairs whose basis monomials sum
(elementwise) to `m`. -/
def cls (monoms : List Monom) (m : Monom) : Entries :=
  (allPairs monoms.length).filter
    (fun p => sum_tuple (monoms.getD p.1 []) (monoms.getD p.2 []) = m)

/-- The coefficient of `x^m` in the expansion of `bᵀ Q b`, written from
the spec's words: the sum of `Q[i,j]` over all pairs `(i, j)` with
`bᵢ · bⱼ = x^m`. -/
def expandCoeff (monoms : List Monom) (Q : Nat → Nat → ℚ) (m : Monom) : ℚ :=
  ((cls monoms m).map (fun p => Q p.1 p.2)).sum

theorem ddGetD_buildEntries_cls (monoms : List Monom) (m : Monom) :
    ddGetD (buildEntries monoms) m = cls monoms m :=
  ddGetD_buildEntries monoms m

theorem mem_cls {monoms : List Monom} {m : Monom} {p : Nat × Nat} :
    p ∈ cls monoms m ↔ p ∈ allPairs monoms.length ∧
      sum_tuple (monoms.getD p.1 []) (monoms.getD p.2 []) = m := by
  rw [cls, List.mem_filter]
  simp

theorem cls_sum {monoms : List Monom} {m : Monom} {p : Nat × Nat}
    (h : p ∈ cls monoms m) :
    sum_tuple (monoms.getD p.1 []) (monoms.getD p.2 []) = m :=
  (mem_cls.1 h).2

theorem sum_tuple_comm (a b : Monom) : sum_tuple a b = sum_tuple b a := by
  induction a generalizing b with
  | nil => cases b <;> rfl
  | cons x xs ih =>
    cases b with
    | nil => rfl
    | cons y ys => simp [sum_tuple, List.zipWith] at ih ⊢; exact ⟨Nat.add_comm x y, ih ys⟩

theorem cls_symm {monoms : List Monom} {m : Monom} {i j : Nat} :
    (i, j) ∈ cls monoms m ↔ (j, i) ∈ cls monoms m := by
  rw [mem_cls, mem_cls, mem_allPairs, mem_allPairs]
  constructor
  · rintro ⟨⟨h1, h2⟩, hs⟩
    exact ⟨⟨h2, h1⟩, by rw [sum_tuple_comm]; exact hs⟩
  · rintro ⟨⟨h1, h2⟩, hs⟩
    exact ⟨⟨h2, h1⟩, by rw [sum_tuple_comm]; exact hs⟩

theorem cls_ne_nil_of_contains (monoms : List Monom) (m : Monom)
    (h : ddContains (buildEntries monoms) m = true) : cls monoms m ≠ [] := by
  obtain ⟨p, hp, hs⟩ := (ddContains_buildEntries monoms m).1 h
  intro hnil
  have hmem : p ∈ cls monoms m := mem_cls.2 ⟨hp, hs⟩
  rw [hnil] at hmem
  simp at hmem

theorem find?_congr {p q : α → Bool} (l : List α) (h : ∀ x ∈ l, p x = q x) :
    l.find? p = l.find? q := by
  induction l with
  | nil => rfl
  | cons x xs ih =>
    rw [List.find?_cons, List.find?_cons, h x (by simp),
      ih (fun y hy => h y (by simp [hy]))]

theorem sum_map_const {c : ℚ} (l : List α) :
    (l.map (fun _ => c)).sum = l.length • c := by
  induction l with
  | nil => simp
  | cons x xs ih =>
    simp only [List.map_cons, List.sum_cons, ih, List.length_cons, succ_nsmul,
      nsmul_eq_mul, Nat.cast_add, Nat.cast_one]
    ring

/-- The matrix component of the `sos_sym_poly_repr` fold, with the
dictionary argument frozen (valid when every monomial is a key). -/
def foldMat (D : DDict) (ps : SPoly) (Q0 : Nat → Nat → ℚ) : Nat → Nat → ℚ :=
  ps.foldl
    (fun Q mc => updAll Q (ddGetD D mc.1) (mc.2 / (ddGetD D mc.1).length)) Q0

theorem foldl_reprStep_mat (ps : SPoly) (D : DDict)
    (hkeys : ∀ mc ∈ ps, ddContains D mc.1 = true) :
    ∀ Q0 : Nat → Nat → ℚ,
      (ps.foldl reprStep (Q0, D)).1 = foldMat D ps Q0 := by
  induction ps with
  | nil => intro Q0; rfl
  | cons mc rest ih =>
    intro Q0
    have h1 : List.foldl reprStep (Q0, D) (mc :: rest)
        = List.foldl reprStep (reprStep (Q0, D) mc) rest := rfl
    have h2 : foldMat D (mc :: rest) Q0
        = foldMat D rest (updAll Q0 (ddGetD D mc.1)
            (mc.2 / (ddGetD D mc.1).length)) := rfl
    rw [h1, h2, reprStep_of_contains (Q0, D) mc (hkeys mc (by simp))]
    exact ih (fun x hx => hkeys x (by simp [hx])) _

theorem foldMat_apply (monoms : List Monom) (ps : SPoly)
    (hnd : (ps.map Prod.fst).Nodup) (Q0 : Nat → Nat → ℚ) (i j : Nat) :
    foldMat (buildEntries monoms) ps Q0 i j
      = match ps.find? (fun t => decide ((i, j) ∈ cls monoms t.1)) with
        | some t => t.2 / (cls monoms t.1).length
        | none => Q0 i j := by
  induction ps generalizing Q0 with
  | nil => rfl
  | cons mc rest ih =>
    have h2 : foldMat (buildEntries monoms) (mc :: rest) Q0
        = foldMat (buildEntries monoms) rest
            (updAll Q0 (ddGetD (buildEntries monoms) mc.1)
              (mc.2 / (ddGetD (buildEntries monoms) mc.1).length)) := rfl
    rw [h2, ih (by simpa using hnd.of_cons), List.find?_cons]
    by_cases hmem : (i, j) ∈ cls monoms mc.1
    · rw [show (decide ((i, j) ∈ cls monoms mc.1)) = true by simpa using hmem]
      have hnone : rest.find? (fun t => decide ((i, j) ∈ cls monoms t.1)) = none := by
        rw [List.find?_eq_none]
        intro t ht hdec
        have hmem' : (i, j) ∈ cls monoms t.1 := by simpa using hdec
        have heq : t.1 = mc.1 := by
          rw [← cls_sum hmem', ← cls_sum hmem]
        have : mc.1 ∈ rest.map Prod.fst :=
          List.mem_map.2 ⟨t, ht, heq⟩
        simp only [List.map_cons, List.nodup_cons] at hnd
        exact hnd.1 this
      rw [hnone, ddGetD_buildEntries_cls, updAll_apply]
      simp [hmem]
    · rw [show (decide ((i, j) ∈ cls monoms mc.1)) = false by simpa using hmem]
      cases hfind : rest.find? (fun t => decide ((i, j) ∈ cls monoms t.1)) with
      | some t => rfl
      | none =>
        rw [ddGetD_buildEntries_cls, updAll_apply]
        simp [hmem]

theorem check_ok_keys (B : Basis) (poly : SPoly)
    (h : B.check_can_represent poly = .ok ()) :
    ∀ m ∈ poly.map Prod.fst, ddContains B.sos_sym_entries m = true := by
  intro m hm
  by_contra hc
  rw [Bool.not_eq_true] at hc
  exact (check_err_iff B poly).2 (Or.inr (Or.inr ⟨m, hm, hc⟩)) h

/-- **C1**: for every polynomial `p` representable in a (freshly
constructed) basis `B` — i.e. passing `check_can_represent` —
`sos_sym_poly_repr(p)` returns a symmetric matrix `Qp` such that
`bᵀ Qp b`, with `b` the vector of `B`'s monomials, expands back to
exactly `p`: the coefficient of every monomial `m` in the expansion
equals `p`'s coefficient of `m`. -/
theorem sos_sym_poly_repr_roundtrip (monoms : List Monom) (hne : monoms ≠ [])
    (poly : SPoly) (hnd : (poly.map Prod.fst).Nodup)
    (hchk : (Basis.init monoms).check_can_represent poly = .ok ()) :
    (∀ i j, ((Basis.init monoms).sos_sym_poly_repr poly).1 i j
        = ((Basis.init monoms).sos_sym_poly_repr poly).1 j i)
    ∧ ∀ m : Monom,
        expandCoeff monoms ((Basis.init monoms).sos_sym_poly_repr poly).1 m
          = coeffOf poly m := by
  have hkeys : ∀ mc ∈ poly, ddContains (buildEntries monoms) mc.1 = true :=
    fun mc hmc =>
      check_ok_keys _ _ hchk mc.1 (List.mem_map.2 ⟨mc, hmc, rfl⟩)
  have hQ : ((Basis.init monoms).sos_sym_poly_repr poly).1
      = foldMat (buildEntries monoms) poly (fun _ _ => 0) :=
    foldl_reprStep_mat poly _ hkeys _
  constructor
  · intro i j
    rw [hQ, foldMat_apply monoms poly hnd, foldMat_apply monoms poly hnd]
    rw [find?_congr poly (fun t _ => decide_eq_decide.2 cls_symm)]
  · intro m
    have hQval : ∀ p ∈ cls monoms m,
        ((Basis.init monoms).sos_sym_poly_repr poly).1 p.1 p.2
          = match poly.find? (fun t => decide (t.1 = m)) with
            | some t => t.2 / (cls monoms m).length
            | none => 0 := by
      intro p hp
      rw [hQ, foldMat_apply monoms poly hnd]
      have hcongr : poly.find? (fun t => decide ((p.1, p.2) ∈ cls monoms t.1))
          = poly.find? (fun t => decide (t.1 = m)) := by
        refine find?_congr poly (fun t _ => decide_eq_decide.2 ?_)
        constructor
        · intro hmem
          rw [← cls_sum hmem, ← cls_sum hp]
        · intro heq
          rw [heq]
          exact hp
      rw [hcongr]
      cases hfind : poly.find? (fun t => decide (t.1 = m)) with
      | some t =>
        have ht1 : t.1 = m := by simpa using List.find?_some hfind
        show t.2 / ((cls monoms t.1).length : ℚ)
          = t.2 / ((cls monoms m).length : ℚ)
        rw [ht1]
      | none => rfl
    rw [expandCoeff, List.map_congr_left hQval, coeffOf]
    cases hfind : poly.find? (fun t => decide (t.1 = m)) with
    | some t =>
      have ht1 : t.1 = m := by simpa using List.find?_some hfind
      have htmem : t ∈ poly := List.mem_of_find?_eq_some hfind
      have hne' : cls monoms m ≠ [] := by
        refine cls_ne_nil_of_contains monoms m ?_
        have := hkeys t htmem
        rw [ht1] at this
        exact this
      rw [sum_map_const]
      rw [nsmul_eq_mul, mul_div_cancel₀]
      exact Nat.cast_ne_zero.2 (fun hlen => hne' (List.length_eq_zero.1 hlen))
    | none => simp

/-- Witness for C1: the basis `[1, x]` and the polynomial
`x² + 2x + 3`. -/
theorem sos_sym_poly_repr_roundtrip_witness :
    ([[0],[1]] : List Monom) ≠ []
    ∧ (([([2], (1:ℚ)), ([1], 2), ([0], 3)] : SPoly).map Prod.fst).Nodup
    ∧ (Basis.init [[0],[1]]).check_can_represent
        [([2], (1:ℚ)), ([1], 2), ([0], 3)] = .ok ()
    ∧ ((∀ i j, ((Basis.init [[0],[1]]).sos_sym_poly_repr
            [([2], (1:ℚ)), ([1], 2), ([0], 3)]).1 i j
          = ((Basis.init [[0],[1]]).sos_sym_poly_repr
              [([2], (1:ℚ)), ([1], 2), ([0], 3)]).1 j i)
      ∧ ∀ m : Monom,
          expandCoeff [[0],[1]]
              ((Basis.init [[0],[1]]).sos_sym_poly_repr
                [([2], (1:ℚ)), ([1], 2), ([0], 3)]).1 m
            = coeffOf [([2], (1:ℚ)), ([1], 2), ([0], 3)] m) :=
  ⟨by decide, by decide, by rfl,
    sos_sym_poly_repr_roundtrip [[0],[1]] (by decide)
      [([2], (1:ℚ)), ([1], 2), ([0], 3)] (by decide) (by rfl)⟩

/-! ### The inequality-products enumeration (C6) -/

theorem mem_combinations : ∀ (l : List α) (r : Nat) (c : List α),
    c ∈ combinations l r ↔ c.Sublist l ∧ c.length = r := by
  intro l
  induction l with
  | nil =>
    intro r c
    cases r with
    | zero =>
      simp only [combinations, List.mem_singleton]
      constructor
      · rintro rfl
        exact ⟨List.nil_sublist _, rfl⟩
      · rintro ⟨hs, hl⟩
        exact List.length_eq_zero.1 hl
    | succ r =>
      simp only [combinations, List.not_mem_nil, false_iff, not_and]
      intro hs
      rw [List.sublist_nil.1 hs]
      simp
  | cons x xs ih =>
    intro r c
    cases r with
    | zero =>
      simp only [combinations, List.mem_singleton]
      constructor
      · rintro rfl
        exact ⟨List.nil_sublist _, rfl⟩
      · rintro ⟨hs, hl⟩
        exact List.length_eq_zero.1 hl
    | succ r =>
      rw [show combinations (x :: xs) (r+1)
          = (combinations xs r).map (x :: ·) ++ combinations xs (r+1) from rfl]
      rw [List.mem_append]
      constructor
      · rintro (h | h)
        · obtain ⟨c', hc', rfl⟩ := List.mem_map.1 h
          obtain ⟨hs, hl⟩ := (ih r c').1 hc'
          exact ⟨List.cons_sublist_cons.2 hs, by simp [hl]⟩
        · obtain ⟨hs, hl⟩ := (ih (r+1) c).1 h
          exact ⟨hs.cons x, hl⟩
      · rintro ⟨hs, hl⟩
        rcases List.sublist_cons_iff.1 hs with h | ⟨rr, rfl, hrr⟩
        · right
          exact (ih (r+1) c).2 ⟨h, hl⟩
        · left
          refine List.mem_map.2 ⟨rr, (ih r rr).2 ⟨hrr, ?_⟩, rfl⟩
          simpa using hl

/-- The subsets enumerated by the `ineq_prods` loops: all combinations of
sizes `0 .. len(ineqs) - 1`, in loop order. -/
def combList (ineqs : List SPoly) : List (List SPoly) :=
  (List.range ineqs.length).flatMap (fun r => combinations ineqs r)

theorem mem_combList (ineqs : List SPoly) (c : List SPoly) :
    c ∈ combList ineqs ↔ c.Sublist ineqs ∧ c.length < ineqs.length := by
  simp only [combList, List.mem_flatMap, List.mem_range, mem_combinations]
  constructor
  · rintro ⟨r, hr, hs, rfl⟩
    exact ⟨hs, hr⟩
  · rintro ⟨hs, hl⟩
    exact ⟨c.length, hl, hs, rfl⟩

/-- The multiplier term built by one kept subset in `poly_opt_prob`'s
loop (the SOS-constraint name uses the already-incremented index). -/
def mkTermOpt (deg i : Nat) (comb : List SPoly) : IneqProdTerm :=
  { pv_name := "e" ++ toString i
    sos_name := "e" ++ toString (i + 1)
    mult_deg := (2 * deg - (comb.map totalDegree).sum) / 2 * 2
    comb := comb }

/-- The multiplier term built by one kept subset in `poly_cert_prob`'s
loop (both names use the same index). -/
def mkTermCert (deg i : Nat) (comb : List SPoly) : IneqProdTerm :=
  { pv_name := "e" ++ toString i
    sos_name := "e" ++ toString i
    mult_deg := (2 * deg - (comb.map totalDegree).sum) / 2 * 2
    comb := comb }

theorem foldTerms_proj (deg : Nat) (cs : List (List SPoly))
    (f : Nat → List SPoly → IneqProdTerm)
    (hf : ∀ i comb, (f i comb).comb = comb ∧
      (f i comb).mult_deg = (2*deg - (comb.map totalDegree).sum)/2*2) :
    ∀ (i0 : Nat) (acc : List IneqProdTerm),
      ((cs.foldl (fun st comb =>
          if (comb.map totalDegree).sum ≤ 2*deg
          then (st.1 + 1, st.2 ++ [f st.1 comb]) else st)
        (i0, acc)).2).map (fun t => (t.comb, t.mult_deg))
      = acc.map (fun t => (t.comb, t.mult_deg))
        ++ cs.filterMap (fun comb =>
            if (comb.map totalDegree).sum ≤ 2*deg
            then some (comb, (2*deg - (comb.map totalDegree).sum)/2*2)
            else none) := by
  induction cs with
  | nil => intro i0 acc; simp
  | cons c cs' ih =>
    intro i0 acc
    by_cases h : (c.map totalDegree).sum ≤ 2*deg
    · rw [show List.foldl _ (i0, acc) (c :: cs')
          = List.foldl (fun st comb =>
              if (comb.map totalDegree).sum ≤ 2*deg
              then (st.1 + 1, st.2 ++ [f st.1 comb]) else st)
            (i0 + 1, acc ++ [f i0 c]) cs' from by
        simp only [List.foldl_cons, if_pos h]]
      rw [ih, List.filterMap_cons]
      rw [if_pos h, List.map_append]
      obtain ⟨h1, h2⟩ := hf i0 c
      simp [h1, h2, List.append_assoc]
    · rw [show List.foldl _ (i0, acc) (c :: cs')
          = List.foldl (fun st comb =>
              if (comb.map totalDegree).sum ≤ 2*deg
              then (st.1 + 1, st.2 ++ [f st.1 comb]) else st)
            (i0, acc) cs' from by
        simp only [List.foldl_cons, if_neg h]]
      rw [ih, List.filterMap_cons, if_neg h]

/-- **C6**: in inequality-products mode, both relaxation builders
enumerate exactly the combinations of the inequality list of sizes `0`
through `len(ineqs) - 1` (the full-size subset is excluded), keep exactly
those whose summed total degree is at most `2*deg`, and give each kept
subset (in enumeration order) a multiplier of degree
`(2*deg - total_deg) // 2 * 2` — `2*deg` minus the total degree, rounded
down to even — attached to that subset, whose product of inequalities it
multiplies. -/
theorem ineq_prods_enumeration (ineqs : List SPoly) (deg : Nat) :
    (ineq_prod_terms_opt ineqs deg).map (fun t => (t.comb, t.mult_deg))
      = (combList ineqs).filterMap (fun comb =>
          if (comb.map totalDegree).sum ≤ 2*deg
          then some (comb, (2*deg - (comb.map totalDegree).sum)/2*2)
          else none)
    ∧ (ineq_prod_terms_cert ineqs deg).map (fun t => (t.comb, t.mult_deg))
      = (combList ineqs).filterMap (fun comb =>
          if (comb.map totalDegree).sum ≤ 2*deg
          then some (comb, (2*deg - (comb.map totalDegree).sum)/2*2)
          else none)
    ∧ (∀ c, c ∈ combList ineqs ↔ c.Sublist ineqs ∧ c.length < ineqs.length)
    ∧ ineqs ∉ combList ineqs := by
  refine ⟨?_, ?_, mem_combList ineqs, ?_⟩
  · have h := foldTerms_proj deg
      ((List.range ineqs.length).flatMap (fun r => combinations ineqs r))
      (mkTermOpt deg) (fun i comb => ⟨rfl, rfl⟩) 0 []
    rw [foldl_flatMap] at h
    simpa using h
  · have h := foldTerms_proj deg
      ((List.range ineqs.length).flatMap (fun r => combinations ineqs r))
      (mkTermCert deg) (fun i comb => ⟨rfl, rfl⟩) 0 []
    rw [foldl_flatMap] at h
    simpa using h
  · intro h
    exact absurd ((mem_combList ineqs ineqs).1 h).2 (by omega)

/-! ### The pseudoexpectation of `x²` at degree 2 over one variable (C7) -/

/-- Projection out of a pexpect result, defaulting on error. -/
def exceptGetD (e : Except PyErr PicExpr) (dflt : PicExpr) : PicExpr :=
  match e with
  | .ok v => v
  | .error _ => dflt

/-- The pseudoexpectation operator of `get_pexpect([x], 2)` on a fresh
problem, applied to the polynomial `x²`. -/
def pexpect_x2 : DDict × Except PyErr PicExpr :=
  pexpect_apply (get_pexpect emptyProblem 1 2 "").2.1
    (get_pexpect emptyProblem 1 2 "").2.2 [([2], (1:ℚ))]

/-- The Gram representative of `x²` in the pexpect basis `[1, x]`. -/
def x2Qp : Nat → Nat → ℚ :=
  ((Basis.from_degree 1 1 false).sos_sym_poly_repr [([2], (1:ℚ))]).1

/-- **C7**: the pseudoexpectation operator built by `get_pexpect` for
degree 2 over the single variable `x`, applied to `x²`, returns (without
raising) an expression equal to the single moment variable `X[i,i]` at
`i = 1`, the basis position of the monomial `x` in the pexpect basis
`[1, x]` — for every value of the moment matrix variable `_X1`, the
returned affine expression evaluates to `X[1,1]`. -/
theorem pexpect_x2_spec :
    (get_pexpect emptyProblem 1 2 "").2.1.monoms = [[0],[1]]
    ∧ (get_pexpect emptyProblem 1 2 "").2.2 = "_X1"
    ∧ pexpect_x2.2.isOk = true
    ∧ ∀ X : String → Nat → Nat → ℚ,
        (exceptGetD pexpect_x2.2 (.const 0)).eval X = X "_X1" 1 1 := by
  refine ⟨by decide, by decide, by rfl, ?_⟩
  intro X
  have e1 : exceptGetD pexpect_x2.2 (.const 0) = frobenius 2 x2Qp "_X1" := rfl
  have e2 : (frobenius 2 x2Qp "_X1").eval X
      = 0 + x2Qp 0 0 * X "_X1" 0 0 + x2Qp 0 1 * X "_X1" 0 1
        + x2Qp 1 0 * X "_X1" 1 0 + x2Qp 1 1 * X "_X1" 1 1 := rfl
  have q00 : x2Qp 0 0 = 0 := rfl
  have q01 : x2Qp 0 1 = 0 := rfl
  have q10 : x2Qp 1 0 = 0 := rfl
  have q11 : x2Qp 1 1 = 1 / ((1:Nat) : ℚ) := rfl
  rw [e1, e2, q00, q01, q10, q11]
  norm_num

end SumOfSquares
